import Mathlib

/-!
Shallow embedding of the agent-bridge coordination core (`bridge.py`): the
lease subsystem (`lock_file`, `unlock_file`, `list_locks` over the
`file_locks` table) and the message lifecycle (`send_message`,
`fetch_inbox`, `mark_read`, `ack_message` over the `messages` table).

Modelling conventions:
* Each SQLite table touched by the core becomes a Lean list of records; the
  `path TEXT PRIMARY KEY` upsert (`INSERT ... ON CONFLICT(path) DO UPDATE`)
  becomes `upsertLock`, which replaces the row in place or appends.
* Timestamps are `Int` instants on one consistent clock (ISO-8601 strings of
  a single clock compare lexicographically exactly as the instants compare).
  Every separate `datetime.utcnow()` call in the Python source becomes a
  separate explicit instant parameter, in the source's evaluation order; in
  particular `ack_message` takes two instants because the source calls
  `datetime.utcnow()` once for `ack_at` and a second time for the
  `COALESCE(read_at, ...)` backfill, and `lock_file` takes one instant for
  computing `expires_at` and a second one for the liveness check.
* SQLite `AUTOINCREMENT` message ids become the `nextId` counter.
* Result dictionaries become the pieces of the result that carry
  information: the `status` string, and the holder / id / expiry fields.
-/

/-- A row of the `file_locks` table: `path TEXT PRIMARY KEY`, `agent`,
`reason`, `expires_at`. -/
structure Lease where
  path : String
  agent : String
  reason : String
  expiresAt : Int
  deriving DecidableEq, Repr

/-- A row of the `messages` table. -/
structure Message where
  id : Nat
  sender : String
  recipient : String
  subject : String
  body : String
  threadId : Option String
  createdAt : Int
  readAt : Option Int
  ackAt : Option Int
  deriving DecidableEq, Repr

/-- The durable store state used by the core: the `messages` table with its
`AUTOINCREMENT` counter, and the `file_locks` table. -/
structure BridgeState where
  messages : List Message
  nextId : Nat
  locks : List Lease
  deriving DecidableEq, Repr

/-- Result of `lock_file`: either `{"status": "locked", "expires_at": ...}`
or `{"status": "conflict", "holder": ...}` (the echoed `path` is the input
argument and is omitted). -/
inductive LockResult where
  | locked (expiresAt : Int)
  | conflict (holder : String)
  deriving DecidableEq, Repr

/-- Embeds `INSERT INTO file_locks ... ON CONFLICT(path) DO UPDATE SET agent =
excluded.agent, reason = excluded.reason, expires_at = excluded.expires_at`:
if a row with the same path exists it is overwritten in place (all non-key
columns come from the new row), otherwise the new row is inserted. -/
def upsertLock (locks : List Lease) (l : Lease) : List Lease :=
  if locks.any (fun x => x.path == l.path) then
    locks.map (fun x => if x.path == l.path then l else x)
  else
    locks ++ [l]

/-- Embeds `lock_file(path, agent, reason="", ttl_seconds=1800)`.  `tNow` is the
`datetime.utcnow()` instant used to compute `expires = now + ttl_seconds`;
`tChk` is the second `datetime.utcnow()` instant used in the
`SELECT ... WHERE path = ? AND expires_at > ?` liveness check. -/
def lock_file (s : BridgeState) (path agent reason : String) (ttl_seconds : Int)
    (tNow tChk : Int) : LockResult × BridgeState :=
  let expires := tNow + ttl_seconds
  match s.locks.find? (fun l => l.path == path && decide (tChk < l.expiresAt)) with
  | some l =>
      if l.agent ≠ agent then
        (LockResult.conflict l.agent, s)
      else
        (LockResult.locked expires,
          { s with locks := upsertLock s.locks ⟨path, agent, reason, expires⟩ })
  | none =>
      (LockResult.locked expires,
        { s with locks := upsertLock s.locks ⟨path, agent, reason, expires⟩ })

/-- Embeds `unlock_file(path, agent)`: `DELETE FROM file_locks WHERE path = ? AND
agent = ?`, then unconditionally report `{"status": "unlocked"}`. -/
def unlock_file (s : BridgeState) (path agent : String) : String × BridgeState :=
  ("unlocked",
    { s with locks := s.locks.filter (fun l => !(l.path == path && l.agent == agent)) })

/-- Embeds `list_locks(agent=None)`: `SELECT * FROM file_locks WHERE [agent = ? AND]
expires_at > ?` with `now = datetime.utcnow()`. -/
def list_locks (s : BridgeState) (agentFilter : Option String) (now : Int) :
    List Lease :=
  match agentFilter with
  | some a => s.locks.filter (fun l => l.agent == a && decide (now < l.expiresAt))
  | none => s.locks.filter (fun l => decide (now < l.expiresAt))

/-- Embeds `send_message(sender, recipient, subject, body="", thread_id=None)`:
`INSERT INTO messages (sender, recipient, subject, body, thread_id)`, with
`read_at`/`ack_at` left NULL, `id` assigned by `AUTOINCREMENT`, `created_at`
defaulted to the current instant; returns `{"status": "sent", "id": cur.lastrowid}`. -/
def send_message (s : BridgeState) (sender recipient subject body : String)
    (thread_id : Option String) (now : Int) : (String × Nat) × BridgeState :=
  let m : Message :=
    { id := s.nextId, sender := sender, recipient := recipient, subject := subject,
      body := body, threadId := thread_id, createdAt := now, readAt := none, ackAt := none }
  (("sent", s.nextId),
    { s with messages := s.messages ++ [m], nextId := s.nextId + 1 })

/-- Embeds `fetch_inbox(agent, unread_only=True, limit=20)`: `SELECT * FROM messages
WHERE recipient = ? [AND read_at IS NULL] ORDER BY created_at DESC LIMIT ?`. -/
def fetch_inbox (s : BridgeState) (agent : String) (unread_only : Bool := true)
    (limit : Nat := 20) : List Message :=
  let byRecipient := s.messages.filter (fun m => m.recipient == agent)
  let filtered :=
    if unread_only then byRecipient.filter (fun m => m.readAt.isNone) else byRecipient
  (filtered.mergeSort (fun a b => decide (b.createdAt ≤ a.createdAt))).take limit

/-- Embeds `mark_read(message_id, agent)`: `UPDATE messages SET read_at = ? WHERE
id = ? AND recipient = ?` with the current instant, then report
`{"status": "read", "id": message_id}`.  Note the source sets `read_at`
unconditionally on the matching row, even when it is already non-NULL. -/
def mark_read (s : BridgeState) (message_id : Nat) (agent : String) (now : Int) :
    (String × Nat) × BridgeState :=
  (("read", message_id),
    { s with messages := s.messages.map (fun m =>
        if m.id == message_id && m.recipient == agent then
          { m with readAt := some now }
        else m) })

/-- Embeds `ack_message(message_id, agent)`: `UPDATE messages SET ack_at = ?,
read_at = COALESCE(read_at, ?) WHERE id = ? AND recipient = ?`, then report
`{"status": "acknowledged", "id": message_id}`.  The source evaluates
`datetime.utcnow()` twice in the parameter tuple: `tAck` binds the first
call (for `ack_at`) and `tRead` the second (for the `read_at` backfill). -/
def ack_message (s : BridgeState) (message_id : Nat) (agent : String)
    (tAck tRead : Int) : (String × Nat) × BridgeState :=
  (("acknowledged", message_id),
    { s with messages := s.messages.map (fun m =>
        if m.id == message_id && m.recipient == agent then
          { m with ackAt := some tAck, readAt := some (m.readAt.getD tRead) }
        else m) })

/-- An operation of the message lifecycle, carrying the clock instants its
`datetime.utcnow()` calls return (`ack` carries two, in source order). -/
inductive MsgOp where
  | markRead (message_id : Nat) (agent : String) (now : Int)
  | ack (message_id : Nat) (agent : String) (tAck tRead : Int)
  deriving DecidableEq, Repr

/-- Applies one lifecycle operation to the store. -/
def msgStep (s : BridgeState) : MsgOp → BridgeState
  | MsgOp.markRead mid ag now => (mark_read s mid ag now).2
  | MsgOp.ack mid ag tAck tRead => (ack_message s mid ag tAck tRead).2

/-- Applies a sequence of lifecycle operations in order. -/
def msgRun (s : BridgeState) : List MsgOp → BridgeState
  | [] => s
  | op :: rest => msgRun (msgStep s op) rest

/-- The per-row update an operation performs (the body of the UPDATE). -/
def msgFn : MsgOp → Message → Message
  | MsgOp.markRead mid ag now, m =>
      if m.id == mid && m.recipient == ag then { m with readAt := some now } else m
  | MsgOp.ack mid ag tAck tRead, m =>
      if m.id == mid && m.recipient == ag then
        { m with ackAt := some tAck, readAt := some (m.readAt.getD tRead) }
      else m

/-- The earliest clock instant an operation uses. -/
def opMin : MsgOp → Int
  | MsgOp.markRead _ _ now => now
  | MsgOp.ack _ _ tAck tRead => min tAck tRead

/-- The latest clock instant an operation uses. -/
def opMax : MsgOp → Int
  | MsgOp.markRead _ _ now => now
  | MsgOp.ack _ _ tAck tRead => max tAck tRead

/-- Checks that every stored `readAt`/`ackAt` stamp is at most `t`. -/
def stampsLE (s : BridgeState) (t : Int) : Bool :=
  s.messages.all (fun m =>
    m.readAt.all (fun r => decide (r ≤ t)) && m.ackAt.all (fun a => decide (a ≤ t)))

/-- Checks that a monotone wall clock starting no earlier than `t` could have
produced the instants of a sequence of operations. -/
def opsMono : Int → List MsgOp → Bool
  | _, [] => true
  | t, op :: rest => decide (t ≤ opMin op) && opsMono (opMax op) rest

/-! Helper lemmas about `upsertLock` and `List.find?`. -/

/-- In a list whose only element satisfying `q` is `l`, `find?` returns `l`. -/
lemma find_eq_of_mem {α : Type} (m : List α) (q : α → Bool) (l : α) (hl : l ∈ m)
    (hq : q l = true) (huniq : ∀ x ∈ m, q x = true → x = l) : m.find? q = some l := by
  induction m with
  | nil => cases hl
  | cons a as ih =>
      by_cases ha : q a = true
      · rw [List.find?_cons_of_pos _ ha]
        exact congrArg some (huniq a (List.mem_cons_self a as) ha)
      · rw [List.find?_cons_of_neg _ ha]
        rcases List.mem_cons.mp hl with h | h
        · exact absurd (h ▸ hq) ha
        · exact ih h (fun x hx => huniq x (List.mem_cons_of_mem a hx))

/-- The upserted row is a member of the upserted list. -/
lemma mem_upsertLock_self (m : List Lease) (l : Lease) : l ∈ upsertLock m l := by
  unfold upsertLock
  split
  · rename_i h
    rw [List.any_eq_true] at h
    obtain ⟨x, hx, hpx⟩ := h
    exact List.mem_map.mpr ⟨x, hx, by simp [hpx]⟩
  · simp

/-- Every row of the upserted list that carries the upserted path is the
upserted row (the `ON CONFLICT(path) DO UPDATE` overwrites all non-key
columns). -/
lemma eq_of_mem_upsertLock {m : List Lease} {l x : Lease}
    (hx : x ∈ upsertLock m l) (hp : x.path = l.path) : x = l := by
  unfold upsertLock at hx
  split at hx
  · obtain ⟨y, _, hyx⟩ := List.mem_map.mp hx
    by_cases hyp : (y.path == l.path) = true
    · rw [if_pos hyp] at hyx
      exact hyx.symm
    · rw [if_neg hyp] at hyx
      exact absurd (by rw [← hyx] at hp; exact beq_iff_eq.mpr hp) hyp
  · rename_i h
    rcases List.mem_append.mp hx with hmem | hmem
    · have hany : (m.any fun y => y.path == l.path) = true :=
        List.any_eq_true.mpr ⟨x, hmem, beq_iff_eq.mpr hp⟩
      exact absurd hany h
    · simpa using hmem

/-- After upserting `⟨p, ag, rs, e⟩`, a `WHERE path = p AND r` lookup whose
residual predicate `r` accepts the new row finds exactly the new row. -/
lemma find?_upsertLock (m : List Lease) (p ag rs : String) (e : Int)
    (r : Lease → Bool) (hr : r ⟨p, ag, rs, e⟩ = true) :
    (upsertLock m ⟨p, ag, rs, e⟩).find? (fun x => x.path == p && r x) =
      some ⟨p, ag, rs, e⟩ := by
  refine find_eq_of_mem _ _ _ (mem_upsertLock_self m _) (by simp [hr]) ?_
  intro x hx hq
  rw [Bool.and_eq_true] at hq
  exact eq_of_mem_upsertLock hx (beq_iff_eq.mp hq.1)

/-- After upserting `⟨p, ag, rs, e⟩`, a `WHERE path = p AND r` lookup whose
residual predicate `r` rejects the new row finds nothing. -/
lemma find?_upsertLock_none (m : List Lease) (p ag rs : String) (e : Int)
    (r : Lease → Bool) (hr : r ⟨p, ag, rs, e⟩ = false) :
    (upsertLock m ⟨p, ag, rs, e⟩).find? (fun x => x.path == p && r x) = none := by
  rw [List.find?_eq_none]
  intro x hx
  by_cases hp : x.path = p
  · have hxl : x = ⟨p, ag, rs, e⟩ := eq_of_mem_upsertLock hx hp
    simp [hxl, hr]
  · simp [hp]

/-- When `lock_file` reports `locked`, the returned expiry is `tNow + ttl` and
the new state is the state with the requester's row upserted. -/
lemma lock_file_locked_snd {s : BridgeState} {p ag rs : String}
    {ttl tNow tChk e : Int}
    (h : (lock_file s p ag rs ttl tNow tChk).1 = LockResult.locked e) :
    e = tNow + ttl ∧
    (lock_file s p ag rs ttl tNow tChk).2 =
      { s with locks := upsertLock s.locks ⟨p, ag, rs, tNow + ttl⟩ } := by
  cases hf : s.locks.find? (fun l => l.path == p && decide (tChk < l.expiresAt)) with
  | none =>
      have hrun : lock_file s p ag rs ttl tNow tChk =
          (LockResult.locked (tNow + ttl),
            { s with locks := upsertLock s.locks ⟨p, ag, rs, tNow + ttl⟩ }) := by
        unfold lock_file; rw [hf]
      rw [hrun] at h ⊢
      exact ⟨((LockResult.locked.injEq _ _).mp h).symm, rfl⟩
  | some l =>
      by_cases hag : l.agent ≠ ag
      · have hrun : lock_file s p ag rs ttl tNow tChk = (LockResult.conflict l.agent, s) := by
          unfold lock_file
          rw [hf]
          show (if l.agent ≠ ag then (LockResult.conflict l.agent, s)
              else (LockResult.locked (tNow + ttl),
                { s with locks := upsertLock s.locks ⟨p, ag, rs, tNow + ttl⟩ })) =
            (LockResult.conflict l.agent, s)
          rw [if_pos hag]
        rw [hrun] at h
        simp at h
      · have hrun : lock_file s p ag rs ttl tNow tChk =
            (LockResult.locked (tNow + ttl),
              { s with locks := upsertLock s.locks ⟨p, ag, rs, tNow + ttl⟩ }) := by
          unfold lock_file
          rw [hf]
          show (if l.agent ≠ ag then (LockResult.conflict l.agent, s)
              else (LockResult.locked (tNow + ttl),
                { s with locks := upsertLock s.locks ⟨p, ag, rs, tNow + ttl⟩ })) =
            (LockResult.locked (tNow + ttl),
              { s with locks := upsertLock s.locks ⟨p, ag, rs, tNow + ttl⟩ })
          rw [if_neg hag]
        rw [hrun] at h ⊢
        exact ⟨((LockResult.locked.injEq _ _).mp h).symm, rfl⟩

/-- C1 (lease exclusivity): if `A`'s acquire of path `p` was granted and `B ≠ A`
attempts to acquire `p` while `A`'s lease is unexpired (`B`'s liveness-check
instant `t4` is before the stored expiry `t1 + ttl`), then `B` gets a conflict
result naming `A` as the holder, and the whole store state — in particular
`A`'s lease row `(holder, reason, expiresAt)` — is unchanged by `B`'s attempt. -/
theorem lease_exclusivity
    (s₀ : BridgeState) (p A rsA : String) (ttl t1 t2 e : Int)
    (hA : (lock_file s₀ p A rsA ttl t1 t2).1 = LockResult.locked e)
    (B rsB : String) (ttlB t3 t4 : Int)
    (hlive : t4 < t1 + ttl) (hne : B ≠ A) :
    (lock_file ((lock_file s₀ p A rsA ttl t1 t2).2) p B rsB ttlB t3 t4).1 =
        LockResult.conflict A ∧
    (lock_file ((lock_file s₀ p A rsA ttl t1 t2).2) p B rsB ttlB t3 t4).2 =
        (lock_file s₀ p A rsA ttl t1 t2).2 := by
  obtain ⟨-, hs⟩ := lock_file_locked_snd hA
  rw [hs]
  have hfind : List.find? (fun l => l.path == p && decide (t4 < l.expiresAt))
      (upsertLock s₀.locks ⟨p, A, rsA, t1 + ttl⟩) = some ⟨p, A, rsA, t1 + ttl⟩ :=
    find?_upsertLock s₀.locks p A rsA (t1 + ttl)
      (fun x => decide (t4 < x.expiresAt)) (by simpa using hlive)
  simp [lock_file, hfind, Ne.symm hne]

/-- C6 (release authorization and idempotent no-op): `unlock_file` always
reports status `unlocked`; it removes a lease row only when both the path and
the holder match the arguments; and a release by agent `B` leaves every lease
held by a different agent in place — the row is still stored, and still
returned by `list_locks` at any instant at which it is live. -/
theorem release_authorization (s : BridgeState) (p B : String) :
    (unlock_file s p B).1 = "unlocked" ∧
    (∀ l ∈ s.locks, l ∉ (unlock_file s p B).2.locks → l.path = p ∧ l.agent = B) ∧
    (∀ l ∈ s.locks, l.agent ≠ B →
      l ∈ (unlock_file s p B).2.locks ∧
      ∀ now : Int, now < l.expiresAt → l ∈ list_locks (unlock_file s p B).2 none now) := by
  refine ⟨rfl, ?_, ?_⟩
  · intro l hl hnot
    by_contra hc
    apply hnot
    simp only [unlock_file]
    exact List.mem_filter.mpr ⟨hl, by simpa using not_and_or.mp hc⟩
  · intro l hl hne
    have hmem : l ∈ (unlock_file s p B).2.locks := by
      simp only [unlock_file]
      exact List.mem_filter.mpr ⟨hl, by simp [hne]⟩
    refine ⟨hmem, fun now hnow => ?_⟩
    simp only [list_locks]
    exact List.mem_filter.mpr ⟨hmem, by simpa using hnow⟩

/-- Witness for `release_authorization`: a store holding a live lease on `"f"`
by `"a"`, released by `"b"`. -/
theorem release_authorization_witness :
    (unlock_file ⟨[], 1, [⟨"f", "a", "", 10⟩]⟩ "f" "b").1 = "unlocked" ∧
    (∀ l ∈ ([⟨"f", "a", "", 10⟩] : List Lease),
      l ∉ (unlock_file ⟨[], 1, [⟨"f", "a", "", 10⟩]⟩ "f" "b").2.locks →
        l.path = "f" ∧ l.agent = "b") ∧
    (∀ l ∈ ([⟨"f", "a", "", 10⟩] : List Lease), l.agent ≠ "b" →
      l ∈ (unlock_file ⟨[], 1, [⟨"f", "a", "", 10⟩]⟩ "f" "b").2.locks ∧
      ∀ now : Int, now < l.expiresAt →
        l ∈ list_locks (unlock_file ⟨[], 1, [⟨"f", "a", "", 10⟩]⟩ "f" "b").2 none now) :=
  release_authorization ⟨[], 1, [⟨"f", "a", "", 10⟩]⟩ "f" "b"

/-- C7 (inbox filtering and ordering): `fetch_inbox` returns only messages
whose recipient is the requesting agent; with `unread_only = true` only
messages with `readAt` null; the result is ordered newest-first by
`createdAt` and has at most `limit` entries.  (The Lean definition carries
the source's defaults `unread_only = true`, `limit = 20`.) -/
theorem inbox_filtering (s : BridgeState) (agent : String) (uo : Bool) (lim : Nat) :
    (∀ m ∈ fetch_inbox s agent uo lim, m.recipient = agent) ∧
    (uo = true → ∀ m ∈ fetch_inbox s agent uo lim, m.readAt = none) ∧
    (fetch_inbox s agent uo lim).Pairwise (fun a b => b.createdAt ≤ a.createdAt) ∧
    (fetch_inbox s agent uo lim).length ≤ lim := by
  have hsub : ∀ m ∈ fetch_inbox s agent uo lim,
      m ∈ (if uo then
            (s.messages.filter (fun m => m.recipient == agent)).filter
              (fun m => m.readAt.isNone)
          else s.messages.filter (fun m => m.recipient == agent)) := by
    intro m hm
    simp only [fetch_inbox] at hm
    exact List.mem_mergeSort.mp (List.mem_of_mem_take hm)
  refine ⟨?_, ?_, ?_, ?_⟩
  · intro m hm
    have h := hsub m hm
    split at h
    · exact beq_iff_eq.mp (List.mem_filter.mp (List.mem_filter.mp h).1).2
    · exact beq_iff_eq.mp (List.mem_filter.mp h).2
  · intro huo m hm
    have h := hsub m hm
    rw [if_pos huo] at h
    exact Option.isNone_iff_eq_none.mp (List.mem_filter.mp h).2
  · have htrans : ∀ a b c : Message, decide (b.createdAt ≤ a.createdAt) = true →
        decide (c.createdAt ≤ b.createdAt) = true →
        decide (c.createdAt ≤ a.createdAt) = true := by
      intro a b c h1 h2
      simp only [decide_eq_true_eq] at h1 h2 ⊢
      omega
    have htotal : ∀ a b : Message, (decide (b.createdAt ≤ a.createdAt) ||
        decide (a.createdAt ≤ b.createdAt)) = true := by
      intro a b
      simp only [Bool.or_eq_true, decide_eq_true_eq]
      omega
    have hpair := @List.sorted_mergeSort Message
        (fun a b => decide (b.createdAt ≤ a.createdAt)) htrans htotal
        (if uo then
            (s.messages.filter (fun m => m.recipient == agent)).filter
              (fun m => m.readAt.isNone)
          else s.messages.filter (fun m => m.recipient == agent))
    simp only [fetch_inbox]
    exact ((hpair.sublist (List.take_sublist _ _)).imp (fun h => of_decide_eq_true h))
  · simp only [fetch_inbox]
    exact List.length_take_le _ _

/-- Witness for `inbox_filtering`: two messages to `"x"` (one read) and one to
`"y"`, fetched unread-only with limit 20. -/
theorem inbox_filtering_witness :
    (∀ m ∈ fetch_inbox ⟨[⟨1, "a", "x", "s1", "", none, 0, some 1, none⟩,
        ⟨2, "a", "x", "s2", "", none, 1, none, none⟩,
        ⟨3, "a", "y", "s3", "", none, 2, none, none⟩], 4, []⟩ "x" true 20,
      m.recipient = "x") ∧
    (true = true → ∀ m ∈ fetch_inbox ⟨[⟨1, "a", "x", "s1", "", none, 0, some 1, none⟩,
        ⟨2, "a", "x", "s2", "", none, 1, none, none⟩,
        ⟨3, "a", "y", "s3", "", none, 2, none, none⟩], 4, []⟩ "x" true 20,
      m.readAt = none) ∧
    (fetch_inbox ⟨[⟨1, "a", "x", "s1", "", none, 0, some 1, none⟩,
        ⟨2, "a", "x", "s2", "", none, 1, none, none⟩,
        ⟨3, "a", "y", "s3", "", none, 2, none, none⟩], 4, []⟩ "x" true 20).Pairwise
      (fun a b => b.createdAt ≤ a.createdAt) ∧
    (fetch_inbox ⟨[⟨1, "a", "x", "s1", "", none, 0, some 1, none⟩,
        ⟨2, "a", "x", "s2", "", none, 1, none, none⟩,
        ⟨3, "a", "y", "s3", "", none, 2, none, none⟩], 4, []⟩ "x" true 20).length ≤ 20 :=
  inbox_filtering ⟨[⟨1, "a", "x", "s1", "", none, 0, some 1, none⟩,
    ⟨2, "a", "x", "s2", "", none, 1, none, none⟩,
    ⟨3, "a", "y", "s3", "", none, 2, none, none⟩], 4, []⟩ "x" true 20

/-- C8 (cross-recipient isolation): for a message stored at position `i` whose
recipient is not `B`, `mark_read` and `ack_message` invoked by `B` (with any
message id and any instants) leave that message entirely unchanged, while
both operations still report their success statuses. -/
theorem cross_recipient_isolation (s : BridgeState) (mid : Nat) (B : String)
    (t tAck tRead : Int) (i : Nat) (m : Message)
    (hm : s.messages[i]? = some m) (hrec : m.recipient ≠ B) :
    (mark_read s mid B t).1 = ("read", mid) ∧
    (mark_read s mid B t).2.messages[i]? = some m ∧
    (ack_message s mid B tAck tRead).1 = ("acknowledged", mid) ∧
    (ack_message s mid B tAck tRead).2.messages[i]? = some m := by
  refine ⟨rfl, ?_, rfl, ?_⟩
  · simp only [mark_read, List.getElem?_map, hm, Option.map_some]
    simp [hrec]
  · simp only [ack_message, List.getElem?_map, hm, Option.map_some]
    simp [hrec]

/-- Witness for `cross_recipient_isolation`: one message to `"x"`, with
`mark_read`/`ack_message` invoked by `"b"`. -/
theorem cross_recipient_isolation_witness :
    (([⟨1, "a", "x", "s", "", none, 0, none, none⟩] : List Message)[0]? =
        some ⟨1, "a", "x", "s", "", none, 0, none, none⟩) ∧
    "x" ≠ "b" ∧
    (mark_read ⟨[⟨1, "a", "x", "s", "", none, 0, none, none⟩], 2, []⟩ 1 "b" 5).1 =
        ("read", 1) ∧
    (mark_read ⟨[⟨1, "a", "x", "s", "", none, 0, none, none⟩], 2, []⟩ 1 "b" 5).2.messages[0]? =
        some ⟨1, "a", "x", "s", "", none, 0, none, none⟩ ∧
    (ack_message ⟨[⟨1, "a", "x", "s", "", none, 0, none, none⟩], 2, []⟩ 1 "b" 5 6).1 =
        ("acknowledged", 1) ∧
    (ack_message ⟨[⟨1, "a", "x", "s", "", none, 0, none, none⟩], 2, []⟩ 1 "b" 5 6).2.messages[0]? =
        some ⟨1, "a", "x", "s", "", none, 0, none, none⟩ :=
  ⟨by decide, by decide,
    cross_recipient_isolation ⟨[⟨1, "a", "x", "s", "", none, 0, none, none⟩], 2, []⟩
      1 "b" 5 5 6 0 ⟨1, "a", "x", "s", "", none, 0, none, none⟩ (by decide) (by decide)⟩

/-- C9 (send postcondition): `send_message` appends exactly one message, with
`readAt = ackAt = null` and id equal to the returned identifier `nextId`, and
reports status `sent`; under the AUTOINCREMENT invariant (every stored id is
below `nextId`) the new id differs from and exceeds every existing id and the
invariant is preserved, so ids are unique and monotonically assigned across
sends; the theorem holds for every `recipient` string, reflecting that no
recipient validation is performed. -/
theorem send_postcondition (s : BridgeState)
    (sender recipient subject body : String) (tid : Option String) (now : Int)
    (hids : ∀ x ∈ s.messages, x.id < s.nextId) :
    (send_message s sender recipient subject body tid now).1 = ("sent", s.nextId) ∧
    (send_message s sender recipient subject body tid now).2.messages =
      s.messages ++
        [⟨s.nextId, sender, recipient, subject, body, tid, now, none, none⟩] ∧
    (send_message s sender recipient subject body tid now).2.nextId = s.nextId + 1 ∧
    (∀ x ∈ s.messages, x.id ≠ s.nextId ∧ x.id < s.nextId) ∧
    (∀ x ∈ (send_message s sender recipient subject body tid now).2.messages,
      x.id < (send_message s sender recipient subject body tid now).2.nextId) := by
  refine ⟨rfl, rfl, rfl, ?_, ?_⟩
  · intro x hx
    exact ⟨Nat.ne_of_lt (hids x hx), hids x hx⟩
  · intro x hx
    simp only [send_message] at hx ⊢
    rcases List.mem_append.mp hx with h | h
    · exact Nat.lt_succ_of_lt (hids x h)
    · simp only [List.mem_singleton] at h
      rw [h]
      exact Nat.lt_succ_self _

/-- Witness for `send_postcondition`: sending from an empty store. -/
theorem send_postcondition_witness :
    (∀ x ∈ ([] : List Message), x.id < 1) ∧
    (send_message ⟨[], 1, []⟩ "a" "x" "s" "b" none 7).1 = ("sent", 1) ∧
    (send_message ⟨[], 1, []⟩ "a" "x" "s" "b" none 7).2.messages =
      [] ++ [⟨1, "a", "x", "s", "b", none, 7, none, none⟩] ∧
    (send_message ⟨[], 1, []⟩ "a" "x" "s" "b" none 7).2.nextId = 2 ∧
    (∀ x ∈ ([] : List Message), x.id ≠ 1 ∧ x.id < 1) ∧
    (∀ x ∈ (send_message ⟨[], 1, []⟩ "a" "x" "s" "b" none 7).2.messages,
      x.id < (send_message ⟨[], 1, []⟩ "a" "x" "s" "b" none 7).2.nextId) :=
  ⟨by decide, send_postcondition ⟨[], 1, []⟩ "a" "x" "s" "b" none 7 (by decide)⟩

/-- After upserting `⟨p, ag, rs, e⟩`, a path-only lookup finds the new row. -/
lemma find?_path_upsertLock (m : List Lease) (p ag rs : String) (e : Int) :
    (upsertLock m ⟨p, ag, rs, e⟩).find? (fun x => x.path == p) = some ⟨p, ag, rs, e⟩ := by
  refine find_eq_of_mem _ _ _ (mem_upsertLock_self m _) (by simp) ?_
  intro x hx hq
  exact eq_of_mem_upsertLock hx (beq_iff_eq.mp hq)

/-- C5 (renewal idempotence): if `A`'s acquire of `p` was granted, a second
acquire of `p` by the same `A` never returns conflict — it returns `locked`
with the extended expiry `t3 + ttl₂` computed from the second call's clock —
and the lease row for `p` is re-upserted as `(p, A, rs₂, t3 + ttl₂)`. -/
theorem renewal_idempotence
    (s₀ : BridgeState) (p A rs₁ rs₂ : String) (ttl₁ ttl₂ t1 t2 t3 t4 e : Int)
    (hA : (lock_file s₀ p A rs₁ ttl₁ t1 t2).1 = LockResult.locked e) :
    (lock_file ((lock_file s₀ p A rs₁ ttl₁ t1 t2).2) p A rs₂ ttl₂ t3 t4).1 =
        LockResult.locked (t3 + ttl₂) ∧
    ((lock_file ((lock_file s₀ p A rs₁ ttl₁ t1 t2).2) p A rs₂ ttl₂ t3 t4).2).locks.find?
        (fun l => l.path == p) = some ⟨p, A, rs₂, t3 + ttl₂⟩ := by
  obtain ⟨-, hs⟩ := lock_file_locked_snd hA
  rw [hs]
  by_cases hlive : t4 < t1 + ttl₁
  · have hfind : List.find? (fun l => l.path == p && decide (t4 < l.expiresAt))
        (upsertLock s₀.locks ⟨p, A, rs₁, t1 + ttl₁⟩) = some ⟨p, A, rs₁, t1 + ttl₁⟩ :=
      find?_upsertLock s₀.locks p A rs₁ (t1 + ttl₁)
        (fun x => decide (t4 < x.expiresAt)) (by simpa using hlive)
    exact ⟨by simp [lock_file, hfind], by simp [lock_file, hfind, find?_path_upsertLock]⟩
  · have hfind : List.find? (fun l => l.path == p && decide (t4 < l.expiresAt))
        (upsertLock s₀.locks ⟨p, A, rs₁, t1 + ttl₁⟩) = none :=
      find?_upsertLock_none s₀.locks p A rs₁ (t1 + ttl₁)
        (fun x => decide (t4 < x.expiresAt)) (by simpa using hlive)
    exact ⟨by simp [lock_file, hfind], by simp [lock_file, hfind, find?_path_upsertLock]⟩

/-- Witness for `renewal_idempotence`: `"a"` acquires `"f"` at instant `0`
with `ttl = 10`, then again at instant `5` with `ttl = 20`. -/
theorem renewal_idempotence_witness :
    (lock_file ⟨[], 1, []⟩ "f" "a" "r1" 10 0 0).1 = LockResult.locked 10 ∧
    (lock_file ((lock_file ⟨[], 1, []⟩ "f" "a" "r1" 10 0 0).2) "f" "a" "r2" 20 5 5).1 =
        LockResult.locked 25 ∧
    ((lock_file ((lock_file ⟨[], 1, []⟩ "f" "a" "r1" 10 0 0).2) "f" "a" "r2" 20 5 5).2).locks.find?
        (fun l => l.path == "f") = some ⟨"f", "a", "r2", 25⟩ :=
  ⟨by decide,
    renewal_idempotence ⟨[], 1, []⟩ "f" "a" "r1" "r2" 10 20 0 0 5 5 10 (by decide)⟩

/-- C4 (expiry reclamation): if `A`'s acquire of `p` was granted with expiry
`t1 + ttl` and `B` attempts to acquire `p` at a liveness-check instant `t4`
at which that expiry is no longer in the future, then `B`'s acquire is
granted (not conflict), and `B` is the sole live holder of `p`: `B`'s fresh
row is in `list_locks` and every live lease for `p` equals `B`'s row. -/
theorem expiry_reclamation
    (s₀ : BridgeState) (p A rsA : String) (ttl t1 t2 e : Int)
    (hA : (lock_file s₀ p A rsA ttl t1 t2).1 = LockResult.locked e)
    (B rsB : String) (ttlB t3 t4 : Int)
    (hexp : t1 + ttl ≤ t4) (hliveB : t4 < t3 + ttlB) :
    (lock_file ((lock_file s₀ p A rsA ttl t1 t2).2) p B rsB ttlB t3 t4).1 =
        LockResult.locked (t3 + ttlB) ∧
    (⟨p, B, rsB, t3 + ttlB⟩ : Lease) ∈
        list_locks (lock_file ((lock_file s₀ p A rsA ttl t1 t2).2) p B rsB ttlB t3 t4).2
          none t4 ∧
    ∀ l ∈ list_locks (lock_file ((lock_file s₀ p A rsA ttl t1 t2).2) p B rsB ttlB t3 t4).2
        none t4, l.path = p → l = ⟨p, B, rsB, t3 + ttlB⟩ := by
  obtain ⟨-, hs⟩ := lock_file_locked_snd hA
  rw [hs]
  have hfind : List.find? (fun l => l.path == p && decide (t4 < l.expiresAt))
      (upsertLock s₀.locks ⟨p, A, rsA, t1 + ttl⟩) = none :=
    find?_upsertLock_none s₀.locks p A rsA (t1 + ttl)
      (fun x => decide (t4 < x.expiresAt)) (by simpa using not_lt.mpr hexp)
  have hsnd : lock_file { s₀ with locks := upsertLock s₀.locks ⟨p, A, rsA, t1 + ttl⟩ }
        p B rsB ttlB t3 t4 =
      (LockResult.locked (t3 + ttlB),
        { s₀ with locks := (upsertLock (upsertLock s₀.locks ⟨p, A, rsA, t1 + ttl⟩)
            ⟨p, B, rsB, t3 + ttlB⟩) }) := by
    simp [lock_file, hfind]
  rw [hsnd]
  refine ⟨rfl, ?_, ?_⟩
  · simp only [list_locks]
    exact List.mem_filter.mpr ⟨mem_upsertLock_self _ _, by simpa using hliveB⟩
  · intro l hl hp
    simp only [list_locks] at hl
    exact eq_of_mem_upsertLock (List.mem_filter.mp hl).1 hp

/-- Witness for `expiry_reclamation`: `"a"` acquires `"f"` at instant `0`
with `ttl = 1`; after expiry, at instant `2`, `"b"` acquires with `ttl = 10`. -/
theorem expiry_reclamation_witness :
    (lock_file ⟨[], 1, []⟩ "f" "a" "" 1 0 0).1 = LockResult.locked 1 ∧
    (0 : Int) + 1 ≤ 2 ∧ (2 : Int) < 2 + 10 ∧
    (lock_file ((lock_file ⟨[], 1, []⟩ "f" "a" "" 1 0 0).2) "f" "b" "" 10 2 2).1 =
        LockResult.locked 12 ∧
    (⟨"f", "b", "", 12⟩ : Lease) ∈
        list_locks (lock_file ((lock_file ⟨[], 1, []⟩ "f" "a" "" 1 0 0).2) "f" "b" "" 10 2 2).2
          none 2 ∧
    ∀ l ∈ list_locks (lock_file ((lock_file ⟨[], 1, []⟩ "f" "a" "" 1 0 0).2) "f" "b" "" 10 2 2).2
        none 2, l.path = "f" → l = ⟨"f", "b", "", 12⟩ :=
  ⟨by decide, by decide, by decide,
    expiry_reclamation ⟨[], 1, []⟩ "f" "a" "" 1 0 0 1 (by decide) "b" "" 10 2 2
      (by decide) (by decide)⟩

/-- C10 (no TTL validation at acquire): with `ttl_seconds ≤ 0` and no live
lease on `p` held by anyone other than the requester, `lock_file` still
returns status `locked`, with an `expiresAt = t1 + ttl` that is not in the
future of the granting instant `t1`; the resulting row is excluded from
`list_locks` at every instant `t ≥ t1`; and any agent `B` can immediately
acquire the same path. -/
theorem ttl_unvalidated
    (s₀ : BridgeState) (p A rs : String) (ttl t1 t2 : Int)
    (httl : ttl ≤ 0)
    (hA : ∀ l, s₀.locks.find? (fun x => x.path == p && decide (t2 < x.expiresAt)) = some l →
      l.agent = A) :
    (lock_file s₀ p A rs ttl t1 t2).1 = LockResult.locked (t1 + ttl) ∧
    t1 + ttl ≤ t1 ∧
    (∀ t : Int, t1 ≤ t →
      ∀ l ∈ list_locks (lock_file s₀ p A rs ttl t1 t2).2 none t, l.path ≠ p) ∧
    (∀ B rsB : String, ∀ ttlB t3 t4 : Int, t1 ≤ t4 →
      (lock_file (lock_file s₀ p A rs ttl t1 t2).2 p B rsB ttlB t3 t4).1 =
        LockResult.locked (t3 + ttlB)) := by
  have hrun : lock_file s₀ p A rs ttl t1 t2 =
      (LockResult.locked (t1 + ttl),
        { s₀ with locks := upsertLock s₀.locks ⟨p, A, rs, t1 + ttl⟩ }) := by
    cases hf : s₀.locks.find? (fun x => x.path == p && decide (t2 < x.expiresAt)) with
    | none => simp [lock_file, hf]
    | some l => simp [lock_file, hf, hA l hf]
  rw [hrun]
  refine ⟨rfl, by omega, ?_, ?_⟩
  · intro t ht l hl hp
    simp only [list_locks] at hl
    have hmem := List.mem_filter.mp hl
    have hl2 := eq_of_mem_upsertLock hmem.1 hp
    have hlt : t < l.expiresAt := of_decide_eq_true hmem.2
    rw [hl2] at hlt
    simp only at hlt
    omega
  · intro B rsB ttlB t3 t4 ht4
    have hfind : List.find? (fun l => l.path == p && decide (t4 < l.expiresAt))
        (upsertLock s₀.locks ⟨p, A, rs, t1 + ttl⟩) = none :=
      find?_upsertLock_none s₀.locks p A rs (t1 + ttl)
        (fun x => decide (t4 < x.expiresAt)) (by simp; omega)
    simp [lock_file, hfind]

/-- Witness for `ttl_unvalidated`: on an empty store, `"a"` acquires `"f"`
with `ttl_seconds = 0` at instant `3`. -/
theorem ttl_unvalidated_witness :
    (0 : Int) ≤ 0 ∧
    (lock_file ⟨[], 1, []⟩ "f" "a" "" 0 3 3).1 = LockResult.locked 3 ∧
    (3 : Int) + 0 ≤ 3 ∧
    (∀ t : Int, 3 ≤ t →
      ∀ l ∈ list_locks (lock_file ⟨[], 1, []⟩ "f" "a" "" 0 3 3).2 none t, l.path ≠ "f") ∧
    (∀ B rsB : String, ∀ ttlB t3 t4 : Int, 3 ≤ t4 →
      (lock_file (lock_file ⟨[], 1, []⟩ "f" "a" "" 0 3 3).2 "f" B rsB ttlB t3 t4).1 =
        LockResult.locked (t3 + ttlB)) := by
  refine ⟨by decide, ?_⟩
  have h := ttl_unvalidated ⟨[], 1, []⟩ "f" "a" "" 0 3 3 (by decide) (by intro l hl; cases hl)
  simpa using h


lemma msgStep_messages (s : BridgeState) (op : MsgOp) :
    (msgStep s op).messages = s.messages.map (msgFn op) := by
  cases op <;> rfl

lemma stamp_bound {s : BridgeState} {t : Int} (hs : stampsLE s t = true)
    {m : Message} (hm : m ∈ s.messages) :
    (∀ r, m.readAt = some r → r ≤ t) ∧ (∀ a, m.ackAt = some a → a ≤ t) := by
  rw [stampsLE, List.all_eq_true] at hs
  have h := hs m hm
  rw [Bool.and_eq_true] at h
  constructor
  · intro r hr
    have h1 := h.1
    rw [hr] at h1
    simpa using h1
  · intro a ha
    have h2 := h.2
    rw [ha] at h2
    simpa using h2

/-- One operation with instants at or after `t` moves each row's stamps only
forward, and leaves every stamp at or below the operation's latest instant. -/
lemma msgFn_mono {t : Int} (op : MsgOp) (ht : t ≤ opMin op) (m : Message)
    (hr : ∀ r, m.readAt = some r → r ≤ t) (ha : ∀ a, m.ackAt = some a → a ≤ t) :
    (∀ r, m.readAt = some r → ∃ r', (msgFn op m).readAt = some r' ∧ r ≤ r') ∧
    (∀ a, m.ackAt = some a → ∃ a', (msgFn op m).ackAt = some a' ∧ a ≤ a') ∧
    (∀ r, (msgFn op m).readAt = some r → r ≤ opMax op) ∧
    (∀ a, (msgFn op m).ackAt = some a → a ≤ opMax op) := by
  cases op with
  | markRead mid ag now =>
      simp only [opMin] at ht
      simp only [msgFn, opMax]
      by_cases hcond : (m.id == mid && m.recipient == ag) = true
      · rw [if_pos hcond]
        refine ⟨?_, ?_, ?_, ?_⟩
        · intro r hrr
          exact ⟨now, rfl, le_trans (hr r hrr) ht⟩
        · intro a haa
          exact ⟨a, haa, le_refl a⟩
        · intro r hrr
          exact le_of_eq (Option.some.inj hrr).symm
        · intro a haa
          exact le_trans (ha a haa) ht
      · rw [if_neg hcond]
        exact ⟨fun r hrr => ⟨r, hrr, le_refl r⟩, fun a haa => ⟨a, haa, le_refl a⟩,
          fun r hrr => le_trans (hr r hrr) ht, fun a haa => le_trans (ha a haa) ht⟩
  | ack mid ag tAck tRead =>
      simp only [opMin] at ht
      simp only [msgFn, opMax]
      by_cases hcond : (m.id == mid && m.recipient == ag) = true
      · rw [if_pos hcond]
        refine ⟨?_, ?_, ?_, ?_⟩
        · intro r hrr
          refine ⟨r, ?_, le_refl r⟩
          show some (m.readAt.getD tRead) = some r
          rw [hrr]
          rfl
        · intro a haa
          refine ⟨tAck, rfl, ?_⟩
          have h1 : a ≤ t := ha a haa
          have h2 : t ≤ tAck := le_trans ht (min_le_left _ _)
          omega
        · intro r hrr
          have hget : m.readAt.getD tRead = r := Option.some.inj hrr
          cases hR : m.readAt with
          | none =>
              rw [hR] at hget
              simp only [Option.getD_none] at hget
              rw [← hget]
              exact le_max_right _ _
          | some r0 =>
              rw [hR] at hget
              simp only [Option.getD_some] at hget
              have h1 : r0 ≤ t := hr r0 hR
              have h2 : t ≤ min tAck tRead := ht
              rw [← hget]
              have := min_le_left tAck tRead
              have := le_max_left tAck tRead
              omega
        · intro a haa
          have : tAck = a := Option.some.inj haa
          rw [← this]
          exact le_max_left _ _
      · rw [if_neg hcond]
        exact ⟨fun r hrr => ⟨r, hrr, le_refl r⟩, fun a haa => ⟨a, haa, le_refl a⟩,
          fun r hrr => le_trans (hr r hrr) (le_trans ht (min_le_left _ _)) |>.trans
            (le_max_left _ _),
          fun a haa => le_trans (ha a haa) (le_trans ht (min_le_left _ _)) |>.trans
            (le_max_left _ _)⟩

lemma stampsLE_msgStep {s : BridgeState} {t : Int} {op : MsgOp}
    (hs : stampsLE s t = true) (ht : t ≤ opMin op) :
    stampsLE (msgStep s op) (opMax op) = true := by
  rw [stampsLE, List.all_eq_true]
  intro m' hm'
  rw [msgStep_messages] at hm'
  obtain ⟨m, hm, hfm⟩ := List.mem_map.mp hm'
  obtain ⟨hr, ha⟩ := stamp_bound hs hm
  obtain ⟨-, -, hub_r, hub_a⟩ := msgFn_mono op ht m hr ha
  rw [← hfm, Bool.and_eq_true]
  constructor
  · cases hR : (msgFn op m).readAt with
    | none => simp
    | some r => simpa using hub_r r hR
  · cases hA : (msgFn op m).ackAt with
    | none => simp
    | some a => simpa using hub_a a hA

/-- C2 (amended, message timestamp monotonicity): over any sequence of
`mark_read`/`ack_message` operations whose instants come from a monotone
clock that has not fallen behind any stored stamp, each stored message's
`readAt`, once non-null, never becomes null and never decreases, and its
`ackAt`, once non-null, never becomes null and never decreases.  The original
claim's further clause — once `ackAt` is non-null, `readAt ≤ ackAt`, even
after a later `mark_read` — is false of the code: `mark_read` overwrites
`readAt` unconditionally, pushing it past a stored `ackAt`. -/
theorem message_monotonicity (s : BridgeState) (t : Int) (ops : List MsgOp)
    (hs : stampsLE s t = true) (hops : opsMono t ops = true)
    (i : Nat) (m : Message) (hm : s.messages[i]? = some m) :
    ∃ m', (msgRun s ops).messages[i]? = some m' ∧
      (∀ r, m.readAt = some r → ∃ r', m'.readAt = some r' ∧ r ≤ r') ∧
      (∀ a, m.ackAt = some a → ∃ a', m'.ackAt = some a' ∧ a ≤ a') := by
  induction ops generalizing s t m with
  | nil =>
      exact ⟨m, hm, fun r hr => ⟨r, hr, le_refl r⟩, fun a ha => ⟨a, ha, le_refl a⟩⟩
  | cons op rest ih =>
      rw [opsMono, Bool.and_eq_true] at hops
      obtain ⟨h1, h2⟩ := hops
      have ht : t ≤ opMin op := of_decide_eq_true h1
      have hm1 : (msgStep s op).messages[i]? = some (msgFn op m) := by
        rw [msgStep_messages, List.getElem?_map, hm]
        rfl
      obtain ⟨hr, ha⟩ := stamp_bound hs (List.getElem?_mem hm)
      obtain ⟨hmr, hma, -, -⟩ := msgFn_mono op ht m hr ha
      obtain ⟨m', hm', hr', ha'⟩ := ih (msgStep s op) (opMax op)
        (stampsLE_msgStep hs ht) h2 (msgFn op m) hm1
      refine ⟨m', hm', ?_, ?_⟩
      · intro r hrr
        obtain ⟨r1, hr1, hle1⟩ := hmr r hrr
        obtain ⟨r2, hr2, hle2⟩ := hr' r1 hr1
        exact ⟨r2, hr2, le_trans hle1 hle2⟩
      · intro a haa
        obtain ⟨a1, ha1, hle1⟩ := hma a haa
        obtain ⟨a2, ha2, hle2⟩ := ha' a1 ha1
        exact ⟨a2, ha2, le_trans hle1 hle2⟩

/-- Witness for `message_monotonicity`: one already-read message, then a
`mark_read` at a later instant. -/
theorem message_monotonicity_witness :
    stampsLE ⟨[⟨1, "a", "x", "s", "", none, 0, some 1, none⟩], 2, []⟩ 1 = true ∧
    opsMono 1 [MsgOp.markRead 1 "x" 2] = true ∧
    (⟨[⟨1, "a", "x", "s", "", none, 0, some 1, none⟩], 2, []⟩ :
        BridgeState).messages[0]? = some ⟨1, "a", "x", "s", "", none, 0, some 1, none⟩ ∧
    ∃ m', (msgRun ⟨[⟨1, "a", "x", "s", "", none, 0, some 1, none⟩], 2, []⟩
        [MsgOp.markRead 1 "x" 2]).messages[0]? = some m' ∧
      (∀ r, (some (1 : Int) : Option Int) = some r → ∃ r', m'.readAt = some r' ∧ r ≤ r') ∧
      (∀ a, (none : Option Int) = some a → ∃ a', m'.ackAt = some a' ∧ a ≤ a') :=
  ⟨by decide, by decide, by decide,
    message_monotonicity ⟨[⟨1, "a", "x", "s", "", none, 0, some 1, none⟩], 2, []⟩ 1
      [MsgOp.markRead 1 "x" 2] (by decide) (by decide) 0
      ⟨1, "a", "x", "s", "", none, 0, some 1, none⟩ (by decide)⟩

/-- Counterexample to C2 as stated: send a message to `"x"` (id 1, created at
instant 0), acknowledge it at instant 1 (both clock draws equal to 1, so
`readAt = ackAt = 1`), then `mark_read` it at instant 2.  The source's
unconditional `UPDATE messages SET read_at = ?` overwrites `readAt` to 2
while `ackAt` stays 1, so `readAt ≤ ackAt` fails on an acknowledged message. -/
theorem message_monotonicity_cex :
    ((mark_read (ack_message ((send_message ⟨[], 1, []⟩ "a" "x" "s" "" none 0).2)
        1 "x" 1 1).2 1 "x" 2).2).messages =
      [⟨1, "a", "x", "s", "", none, 0, some 2, some 1⟩] ∧
    ¬ ((2 : Int) ≤ 1) := by decide

/-- C3 (ack backfill, evaluated at the failing input): acknowledging a
message whose `readAt` is null writes `ack_at` from the first
`datetime.utcnow()` call and backfills `read_at` from the second, later call
— the source evaluates `datetime.utcnow()` twice in the UPDATE's parameter
tuple.  With clock draws 1 then 2 the stored message ends with
`readAt = some 2` and `ackAt = some 1`: both fields are set in the same
write, but not with the same instant, and `readAt == ackAt` fails. -/
theorem ack_backfill_two_instants :
    ((ack_message ((send_message ⟨[], 1, []⟩ "a" "x" "s" "" none 0).2)
        1 "x" 1 2).2).messages =
      [⟨1, "a", "x", "s", "", none, 0, some 2, some 1⟩] ∧
    ∀ m ∈ ((ack_message ((send_message ⟨[], 1, []⟩ "a" "x" "s" "" none 0).2)
        1 "x" 1 2).2).messages, m.readAt ≠ m.ackAt := by decide

/-- Witness for `lease_exclusivity`: an empty store, `A = "a"` acquires `"f"`
with `ttl = 10` at instant `0`, `B = "b"` tries at instant `5`. -/
theorem lease_exclusivity_witness :
    (lock_file ⟨[], 1, []⟩ "f" "a" "" 10 0 0).1 = LockResult.locked 10 ∧
    (5 : Int) < 0 + 10 ∧ "b" ≠ "a" ∧
    (lock_file ((lock_file ⟨[], 1, []⟩ "f" "a" "" 10 0 0).2) "f" "b" "" 10 5 5).1 =
        LockResult.conflict "a" ∧
    (lock_file ((lock_file ⟨[], 1, []⟩ "f" "a" "" 10 0 0).2) "f" "b" "" 10 5 5).2 =
        (lock_file ⟨[], 1, []⟩ "f" "a" "" 10 0 0).2 :=
  ⟨by decide, by decide, by decide,
    lease_exclusivity ⟨[], 1, []⟩ "f" "a" "" 10 0 0 10 (by decide) "b" "" 10 5 5
      (by decide) (by decide)⟩
